import Mathlib

/- Verification of the mealworm optical-image segmentation pipeline
   (imaging/segmentation/mealworm_optical_image/tools/classes.py):
   tile planning, per-tile labeling from SAM masks, boundary erosion,
   stitching with label merging, and label filtering. -/

namespace MealwormSeg

/-- Label rasters are modelled as total functions from (row, column) to the
pixel's label value; the raster's shape is carried separately, and pixels
outside the shape are irrelevant to the array operations. -/
abbrev Raster := Nat → Nat → Nat

/-- Cells of an H by W raster, in row-major scan order. -/
def gridCells (H W : Nat) : List (Nat × Nat) :=
  ((List.range H).map (fun r => (List.range W).map (fun c => (r, c)))).flatten

/-- One SAM mask: boolean pixel membership (mask["segmentation"]) and its
scalar area (mask["area"]). -/
structure Mask where
  segmentation : Nat → Nat → Bool
  area : Nat

/-- Stable insertion into a list kept in descending-area order: the new mask
goes after every already-present mask of greater or equal area. -/
def insertByAreaDesc (m : Mask) : List Mask → List Mask
  | [] => [m]
  | x :: xs => if m.area ≤ x.area then x :: insertByAreaDesc m xs else m :: x :: xs

/-- Embedding of Python sorted(masks, key=area, reverse=True): a stable sort by
area, descending (insertion sort processes the list left to right, so masks of
equal area keep their original relative order, as Python's stable sort does). -/
def sortMasks (masks : List Mask) : List Mask :=
  masks.foldl (fun acc m => insertByAreaDesc m acc) []

/-- Value stored for the mask at sort position idx: labels has dtype uint8, so
the assignment labels[m] = idx stores idx modulo 2^8 = 256. -/
def paintValue (idx : Nat) : Nat := idx % 256

/-- Embedding of the numpy boolean-mask assignment labels[m] = v. -/
def paint (labels : Raster) (m : Nat → Nat → Bool) (v : Nat) : Raster :=
  fun r c => if m r c then v else labels r c

/-- Embedding of the paint loop: for idx, mask in enumerate(sorted_masks):
labels[mask segmentation] = idx (values taken modulo 256 by the uint8 dtype). -/
def paintMasks (labels : Raster) (idx : Nat) : List Mask → Raster
  | [] => labels
  | m :: ms => paintMasks (paint labels m.segmentation (paintValue idx)) (idx + 1) ms

/-- Embedding of labels_from_sam_masks (classes.py, lines 87-98): returns None
when masks is empty; otherwise paints the masks sorted by area descending
(largest first, so smaller masks overwrite larger ones at overlapping pixels)
onto a uint8 zero raster of the tile image's shape. The image argument
contributes only its shape. -/
def labels_from_sam_masks (imageH imageW : Nat) (masks : List Mask) :
    Option Raster :=
  if masks.length = 0 then none
  else some (paintMasks (fun _ _ => 0) 0 (sortMasks masks))

/-- Helper for stating what the paint loop leaves at a pixel: the painted value
of the last mask of ms (whose first element has enumeration index k) covering
pixel (r, c), if any. -/
def lastPaint (k : Nat) (ms : List Mask) (r c : Nat) : Option Nat :=
  match ms with
  | [] => none
  | m :: tl =>
    match lastPaint (k + 1) tl r c with
    | some v => some v
    | none => if m.segmentation r c then some (paintValue k) else none

/-- Does the mask at position i of ms cover pixel (r, c)? -/
def coversB (ms : List Mask) (i r c : Nat) : Bool :=
  match ms.get? i with
  | some m => m.segmentation r c
  | none => false

/-- Slice bounding box [(x_min, y_min), (x_max, y_max)], max-exclusive; in
calculate_slice_bboxes the x axis carries image_width and the y axis carries
image_height. -/
structure SliceBox where
  xmin : Nat
  ymin : Nat
  xmax : Nat
  ymax : Nat
deriving DecidableEq

/-- Pixel overlap int(ratio * size) of the tile planner, with the float ratio
given as the exact rational num / den: floor of (num / den) * size is
num * size / den in natural division. -/
def overlapPixels (num den size : Nat) : Nat := num * size / den

/-- Inner while loop of calculate_slice_bboxes over x (the image_width axis).
State: the current x_min and x_max (loop guard: x_max < W); fuel bounds the
number of iterations (the coverage proofs show W + 1 always suffices). A box
is clamped to the image edge when the running x_max or the row's y_max would
run past the image bound; natural subtraction renders max(0, hi - size). -/
def sliceRow (H W slice_h slice_w x_ov y_min y_max : Nat) :
    Nat → Nat → Nat → List SliceBox
  | 0, _, _ => []
  | fuel + 1, x_min, x_max =>
    if x_max < W then
      (if H < y_max ∨ W < x_min + slice_w then
        (⟨min W (x_min + slice_w) - slice_w, min H y_max - slice_h,
          min W (x_min + slice_w), min H y_max⟩ : SliceBox)
      else ⟨x_min, y_min, x_min + slice_w, y_max⟩)
        :: sliceRow H W slice_h slice_w x_ov y_min y_max fuel
            (x_min + slice_w - x_ov) (x_min + slice_w)
    else []

/-- Outer while loop of calculate_slice_bboxes over y (the image_height axis).
State: the current y_min and y_max (loop guard: y_max < H). -/
def sliceRows (H W slice_h slice_w y_ov x_ov : Nat) :
    Nat → Nat → Nat → List SliceBox
  | 0, _, _ => []
  | fuel + 1, y_min, y_max =>
    if y_max < H then
      sliceRow H W slice_h slice_w x_ov y_min (y_min + slice_h) (W + 1) 0 0
        ++ sliceRows H W slice_h slice_w y_ov x_ov fuel
            (y_min + slice_h - y_ov) (y_min + slice_h)
    else []

/-- Embedding of calculate_slice_bboxes (classes.py, lines 53-85), with each
overlap ratio passed as the exact rational numH/denH (height) and numW/denW
(width). -/
def calculate_slice_bboxes (image_height image_width slice_height slice_width
    numH denH numW denW : Nat) : List SliceBox :=
  sliceRows image_height image_width slice_height slice_width
    (overlapPixels numH denH slice_height) (overlapPixels numW denW slice_width)
    (image_height + 1) 0 0

/-- Fixed stitching overlap attribute (self.overlap, classes.py line 43):
number of pixels skipped at a subsequent tile's leading edge. -/
def overlap_attr : Nat := 20

/-- Compositing step of stitch_labels (lines 234-241): writes the (eroded)
crop raster into the accumulator at the crop's coordinates; when xmin > 0
(resp. ymin > 0) the leading ov rows (resp. columns) of the write are skipped,
both in the accumulator slice and in the crop slice. -/
def composite (ov : Nat) (b : SliceBox) (acc crop : Raster) : Raster :=
  fun r c =>
    let rlo := if 0 < b.xmin then b.xmin + ov else b.xmin
    let clo := if 0 < b.ymin then b.ymin + ov else b.ymin
    if rlo ≤ r ∧ r < b.xmax ∧ clo ≤ c ∧ c < b.ymax then
      crop (r - b.xmin) (c - b.ymin)
    else acc r c

/-- In-bounds 4-neighbors (connectivity 1) of a cell of an H by W raster. For
an in-bounds center the extra bound checks are redundant; they keep every
listed neighbor inside the raster even for out-of-bounds centers (which the
array code never visits). -/
def neighbors4 (H W r c : Nat) : List (Nat × Nat) :=
  (if 0 < r ∧ r - 1 < H ∧ c < W then [(r - 1, c)] else [])
    ++ (if r + 1 < H ∧ c < W then [(r + 1, c)] else [])
    ++ (if 0 < c ∧ c - 1 < W ∧ r < H then [(r, c - 1)] else [])
    ++ (if c + 1 < W ∧ r < H then [(r, c + 1)] else [])

/-- In-bounds diagonal neighbors of a cell of an H by W raster. -/
def neighborsDiag (H W r c : Nat) : List (Nat × Nat) :=
  (if 0 < r ∧ r - 1 < H ∧ 0 < c ∧ c - 1 < W then [(r - 1, c - 1)] else [])
    ++ (if 0 < r ∧ r - 1 < H ∧ c + 1 < W then [(r - 1, c + 1)] else [])
    ++ (if r + 1 < H ∧ 0 < c ∧ c - 1 < W then [(r + 1, c - 1)] else [])
    ++ (if r + 1 < H ∧ c + 1 < W then [(r + 1, c + 1)] else [])

/-- Neighbors under the given connectivity: 1 gives the 4-neighborhood, any
other value the 8-neighborhood. -/
def neighborsConn (conn H W r c : Nat) : List (Nat × Nat) :=
  if conn = 1 then neighbors4 H W r c
  else neighbors4 H W r c ++ neighborsDiag H W r c

/-- Embedding of find_boundaries(labels_crop, connectivity=1, mode="inner",
background=0) followed by labels_crop[boundary_matrix > 0] = 0 (lines
231-232): a nonzero in-bounds pixel is zeroed exactly when some in-bounds
4-neighbor holds a different value (morphological edge handling reflects the
pixel itself at the frame, so out-of-bounds neighbors never trigger). -/
def erode (H W : Nat) (g : Raster) : Raster :=
  fun r c =>
    if r < H ∧ c < W ∧ g r c ≠ 0
        ∧ (neighbors4 H W r c).any (fun q => g q.1 q.2 != g r c) then 0
    else g r c

/-- Embedding of the numpy assignment labels[labels == target] = v. -/
def replaceAll (g : Raster) (target v : Nat) : Raster :=
  fun r c => if g r c = target then v else g r c

/-- The 3 by 3 neighborhood scanned by the subr/subc loops of
merge_labels_after_stitching, in loop order (it includes the center itself;
the center is only visited for strictly interior cells, so the natural
subtractions never wrap). -/
def neighborsOf (r c : Nat) : List (Nat × Nat) :=
  [(r - 1, c - 1), (r - 1, c), (r - 1, c + 1),
   (r, c - 1), (r, c), (r, c + 1),
   (r + 1, c - 1), (r + 1, c), (r + 1, c + 1)]

/-- Body of the subr/subc loops (lines 109-113): if the neighbor's label is
nonzero and differs from the center's current label, overwrite every pixel
holding the neighbor's label with the center's label, immediately. -/
def mergeNeighbor (rc : Nat × Nat) (g : Raster) (p : Nat × Nat) : Raster :=
  if g p.1 p.2 ≠ 0 ∧ g p.1 p.2 ≠ g rc.1 rc.2 then
    replaceAll g (g p.1 p.2) (g rc.1 rc.2)
  else g

/-- Body of the r/c loops (lines 105-113): only strictly interior nonzero
centers (0 < r < rmax - 1 and 0 < c < cmax - 1 and labels[r, c] > 0) have
their neighborhood processed. -/
def mergeCenter (rmax cmax : Nat) (g : Raster) (rc : Nat × Nat) : Raster :=
  if 0 < rc.1 ∧ rc.1 < rmax - 1 ∧ 0 < rc.2 ∧ rc.2 < cmax - 1 ∧ 0 < g rc.1 rc.2 then
    (neighborsOf rc.1 rc.2).foldl (mergeNeighbor rc) g
  else g

/-- Embedding of merge_labels_after_stitching (classes.py, lines 100-114). -/
def merge_labels_after_stitching (rmax cmax : Nat) (g : Raster) : Raster :=
  (gridCells rmax cmax).foldl (mergeCenter rmax cmax) g

/-- Breadth-first collection of a same-valued connected component (used to
model skimage.measure.label): pops the frontier head, records it if new, and
pushes its in-bounds neighbors holding value v. -/
def bfsVisit (conn H W : Nat) (g : Raster) (v : Nat) :
    Nat → List (Nat × Nat) → List (Nat × Nat) → List (Nat × Nat)
  | 0, _, visited => visited
  | _ + 1, [], visited => visited
  | fuel + 1, p :: frontier, visited =>
    if p ∈ visited then bfsVisit conn H W g v fuel frontier visited
    else
      bfsVisit conn H W g v fuel
        (frontier ++ (neighborsConn conn H W p.1 p.2).filter (fun q => g q.1 q.2 == v))
        (visited ++ [p])

/-- Scan step of the connected-component relabeling: a nonzero cell that has
not been labeled yet gets its whole same-valued connected component assigned
the next fresh id. -/
def labelStep (conn H W : Nat) (g : Raster) (st : Raster × Nat)
    (p : Nat × Nat) : Raster × Nat :=
  if g p.1 p.2 ≠ 0 ∧ st.1 p.1 p.2 = 0 then
    ((fun r c =>
      if (r, c) ∈ bfsVisit conn H W g (g p.1 p.2) (9 * (H * W) + 9) [p] []
      then st.2 else st.1 r c), st.2 + 1)
  else st

/-- Model of the external library function skimage.measure.label(g,
connectivity): scan the cells in row-major order and give each not-yet-labeled
nonzero cell's same-valued connected component the next fresh id 1, 2, ...;
background 0 stays 0, and only in-bounds cells are ever labeled. -/
def label_cc (conn H W : Nat) (g : Raster) : Raster :=
  ((gridCells H W).foldl (labelStep conn H W g) ((fun _ _ => 0 : Raster), 1)).1

/-- One entry of self.labels before stitching: the crop box and the tile's
label raster (the data dict fields crop and labels). -/
structure TileData where
  crop : SliceBox
  labels : Raster

/-- Loop body of stitch_labels (lines 222-248) for one tile: erode the tile's
raster (the erosion writes into the stored raster in place), composite it into
the accumulator, then relabel, merge, and relabel again. Returns the new
accumulator together with the tile entry's post-loop state. -/
def stitchStep (Himg Wimg conn : Nat) (acc : Raster) (t : TileData) :
    Raster × TileData :=
  let th := t.crop.xmax - t.crop.xmin
  let tw := t.crop.ymax - t.crop.ymin
  let eroded := erode th tw t.labels
  let acc1 := composite overlap_attr t.crop acc eroded
  let acc2 := label_cc conn Himg Wimg acc1
  let acc3 := merge_labels_after_stitching Himg Wimg acc2
  let acc4 := label_cc conn Himg Wimg acc3
  (acc4, ⟨t.crop, eroded⟩)

/-- Embedding of stitch_labels (classes.py, lines 214-250): with at most one
tile it prints and returns None, leaving the stored tiles untouched; otherwise
it folds stitchStep over the tiles in order, starting from an all-zero
accumulator of the full image's shape. The second component is the post-loop
state of the stored tile list self.labels (the loop erodes each stored tile
raster in place). -/
def stitch_labels (Himg Wimg conn : Nat) (tiles : List TileData) :
    Option Raster × List TileData :=
  if tiles.length ≤ 1 then (none, tiles)
  else
    let res := tiles.foldl
      (fun (st : Raster × List TileData) t =>
        let next := stitchStep Himg Wimg conn st.1 t
        (next.1, st.2 ++ [next.2]))
      ((fun _ _ => 0 : Raster), [])
    (some res.1, res.2)

/-- region.area of the label value v: the number of raster pixels holding v. -/
def areaOf (H W : Nat) (g : Raster) (v : Nat) : Nat :=
  ((gridCells H W).filter (fun p => g p.1 p.2 == v)).length

/-- Pixels of the label value v in row-major order: the region's pixel set,
from which regionprops derives its descriptors. -/
def classPixels (H W : Nat) (g : Raster) (v : Nat) : List (Nat × Nat) :=
  (gridCells H W).filter (fun p => g p.1 p.2 == v)

/-- Discard test of filter_labels_by_shape (lines 259-263) for the region of
label value v: the region is zeroed when its area lies outside [amin, amax] or
its eccentricity is strictly below eccTh. Eccentricity is a real-valued
regionprops descriptor computed from the region's pixel set; it is abstracted
as the function argument eccFn. -/
def regionFails (eccFn : List (Nat × Nat) → ℚ) (amin amax : Nat) (eccTh : ℚ)
    (H W : Nat) (g : Raster) (v : Nat) : Bool :=
  !(decide (amin ≤ areaOf H W g v ∧ areaOf H W g v ≤ amax))
    || decide (eccFn (classPixels H W g v) < eccTh)

/-- Zeroing loop of filter_labels_by_shape: every pixel of every failing
region is set to 0. The regionprops descriptors are computed from the raster
as it is before the loop, and the zeroed value classes are disjoint, so the
in-place loop equals this pixelwise form on the raster's cells. -/
def filterShapeZero (eccFn : List (Nat × Nat) → ℚ) (amin amax : Nat)
    (eccTh : ℚ) (H W : Nat) (g : Raster) : Raster :=
  fun r c =>
    if r < H ∧ c < W ∧ g r c ≠ 0
        ∧ regionFails eccFn amin amax eccTh H W g (g r c) = true then 0
    else g r c

/-- Embedding of filter_labels_by_shape (classes.py, lines 257-265): zero the
regions failing the area or eccentricity test, then relabel the raster with
connectivity 1. -/
def filter_labels_by_shape (eccFn : List (Nat × Nat) → ℚ) (amin amax : Nat)
    (eccTh : ℚ) (H W : Nat) (g : Raster) : Raster :=
  label_cc 1 H W (filterShapeZero eccFn amin amax eccTh H W g)

/-- Cells on the outer frame of an H by W raster. -/
def borderCells (H W : Nat) : List (Nat × Nat) :=
  (gridCells H W).filter
    (fun p => decide (p.1 = 0 ∨ p.1 = H - 1 ∨ p.2 = 0 ∨ p.2 = W - 1))

/-- Model of the external library function skimage.segmentation.clear_border:
every label value that occurs somewhere on the raster's outer frame is set to
0 everywhere; the remaining values are left unchanged (no relabeling). -/
def clear_border (H W : Nat) (g : Raster) : Raster :=
  fun r c => if (borderCells H W).any (fun q => g q.1 q.2 == g r c) then 0 else g r c

/-- Embedding of filter_labels_on_the_border (classes.py, lines 267-270). -/
def filter_labels_on_the_border (H W : Nat) (g : Raster) : Raster :=
  clear_border H W g

/-- The filter chain of the spec: the shape/area filter pass followed by the
border filter pass, at fixed thresholds. -/
def filterChain (eccFn : List (Nat × Nat) → ℚ) (amin amax : Nat) (eccTh : ℚ)
    (H W : Nat) (g : Raster) : Raster :=
  filter_labels_on_the_border H W
    (filter_labels_by_shape eccFn amin amax eccTh H W g)

/-- The erosion of a tile entry's stored raster, exactly as performed in place
on it by the stitching loop. -/
def erodeTile (t : TileData) : TileData :=
  ⟨t.crop, erode (t.crop.xmax - t.crop.xmin) (t.crop.ymax - t.crop.ymin) t.labels⟩

/-- StepRel g h holds when h arises from g by one global label replacement
with nonzero source and target values, or by no change; every write performed
by the merge pass is of this form. -/
def StepRel (g h : Raster) : Prop :=
  h = g ∨ ∃ t v, t ≠ 0 ∧ v ≠ 0 ∧ h = replaceAll g t v

/-- Reflexive-transitive closure of StepRel. -/
def StepStar : Raster → Raster → Prop := Relation.ReflTransGen StepRel

/-- Concrete 3 by 3 tile raster holding one 2 by 2 region of label 1. -/
def gA : Raster := fun r c => if (r = 1 ∨ r = 2) ∧ (c = 1 ∨ c = 2) then 1 else 0

/-- Concrete tile entry whose crop box covers a whole 3 by 3 image. -/
def tA : TileData := ⟨⟨0, 0, 3, 3⟩, gA⟩

/-- Concrete all-background tile entry over the same 3 by 3 image. -/
def tB : TileData := ⟨⟨0, 0, 3, 3⟩, fun _ _ => 0⟩

/-- Concrete 2 by 2 raster: label 1 fills column 0, label 2 fills column 1. -/
def g2 : Raster := fun r c => if r ≤ 1 ∧ c = 0 then 1 else if r ≤ 1 ∧ c = 1 then 2 else 0

/-- Concrete 3 by 3 raster with the single nonzero pixel (1, 1), label 1. -/
def g3 : Raster := fun r c => if r = 1 ∧ c = 1 then 1 else 0

/-- Eccentricity model returning 0 for every region. -/
def ecc0 : List (Nat × Nat) → ℚ := fun _ => 0

/-- Concrete 3 by 3 raster: label 1 at the border pixel (0, 0) and label 2 at
the interior pixel (1, 1). -/
def O8 : Raster := fun r c => if r = 0 ∧ c = 0 then 1 else if r = 1 ∧ c = 1 then 2 else 0

/-- Single full-coverage mask of area 5. -/
def oneMask : List Mask := [⟨fun _ _ => true, 5⟩]

/-- Single-pixel mask covering (0, k), of area 300 - k. -/
def cMask (k : Nat) : Mask := ⟨fun r c => decide (r = 0 ∧ c = k), 300 - k⟩

/-- Family of 257 disjoint single-pixel masks of strictly decreasing area. -/
def cMasks : List Mask := (List.range 257).map cMask

/- ================= Helper lemmas ================= -/

theorem mem_gridCells {H W r c : Nat} : (r, c) ∈ gridCells H W ↔ r < H ∧ c < W := by
  simp only [gridCells, List.mem_flatten, List.mem_map, List.mem_range]
  constructor
  · rintro ⟨l, ⟨a, ha, rfl⟩, hm⟩
    simp only [List.mem_map, List.mem_range, Prod.mk.injEq] at hm
    obtain ⟨b, hb, he1, he2⟩ := hm
    subst he1; subst he2
    exact ⟨ha, hb⟩
  · rintro ⟨hr, hc⟩
    refine ⟨(List.range W).map (fun c2 => (r, c2)), ⟨r, hr, rfl⟩, ?_⟩
    simp only [List.mem_map, List.mem_range]
    exact ⟨c, hc, rfl⟩

theorem foldl_inv {α : Type} {β : Type} (P : α → Prop) (f : α → β → α)
    (l : List β) (init : α) (h0 : P init)
    (hstep : ∀ st b, b ∈ l → P st → P (f st b)) : P (l.foldl f init) := by
  induction l generalizing init with
  | nil => exact h0
  | cons b l ih =>
    exact ih (f init b) (hstep init b (List.mem_cons_self b l) h0)
      (fun st b2 hb2 => hstep st b2 (List.mem_cons_of_mem b hb2))

/- ================= C4: single-tile stitching ================= -/

/-- C4 (amended): with at most one tile (in particular with exactly one tile
covering the whole image) stitch_labels returns no raster at all (None); a
raster is produced only for two or more tiles. -/
theorem c4_few_tiles_return_none (Himg Wimg conn : Nat) (tiles : List TileData)
    (h : tiles.length ≤ 1) : (stitch_labels Himg Wimg conn tiles).1 = none := by
  unfold stitch_labels
  rw [if_pos h]

/-- Witness for c4_few_tiles_return_none at a concrete single-tile plan. -/
theorem c4_witness :
    ([tA] : List TileData).length ≤ 1 ∧ (stitch_labels 3 3 1 [tA]).1 = none :=
  ⟨by decide, c4_few_tiles_return_none 3 3 1 [tA] (by decide)⟩

/-- C4 (counterexample): stitching the plan consisting of exactly one tile
covering the whole 3 by 3 image returns None, not a raster equal to the
tile's boundary-eroded raster up to relabeling. -/
theorem c4_counterexample :
    (stitch_labels 3 3 1 [tA]).1 = none
      ∧ (stitch_labels 3 3 1 [tA]).1 ≠ some (erode 3 3 tA.labels) :=
  ⟨rfl, fun h => nomatch h⟩

/- ================= C5: empty mask list ================= -/

/-- C5 (amended): for every tile image, when the mask list is empty the tile
labeler returns None (no raster), not an all-zero raster. -/
theorem c5_empty_masks_none (imageH imageW : Nat) :
    labels_from_sam_masks imageH imageW [] = none := rfl

/-- C5 (counterexample): on a concrete 7 by 9 tile with an empty mask list the
labeler returns None and in particular not the all-zero raster the claim
promises. -/
theorem c5_counterexample :
    labels_from_sam_masks 7 9 ([] : List Mask) = none
      ∧ labels_from_sam_masks 7 9 ([] : List Mask) ≠ some (fun _ _ => 0) :=
  ⟨rfl, fun h => nomatch h⟩

/- ================= C2: stitching overlap skip ================= -/

/-- C2 (amended): during compositing, a tile with x_min > 0 (resp. y_min > 0)
has exactly the leading overlap_attr = 20 pixels of its edge skipped — the
accumulator keeps its previous values there — and every row at least
overlap_attr past x_min (up to x_max, within the written column range) is
overwritten with the new tile's values, even where it still lies inside the
planner's wider shared overlap band. -/
theorem c2_fixed_skip :
    (∀ (b : SliceBox) (acc crop : Raster) (r c : Nat),
        0 < b.xmin → r < b.xmin + overlap_attr →
        composite overlap_attr b acc crop r c = acc r c)
    ∧ (∀ (b : SliceBox) (acc crop : Raster) (r c : Nat),
        0 < b.ymin → c < b.ymin + overlap_attr →
        composite overlap_attr b acc crop r c = acc r c)
    ∧ (∀ (b : SliceBox) (acc crop : Raster) (r c : Nat),
        0 < b.xmin → b.ymin = 0 → b.xmin + overlap_attr ≤ r → r < b.xmax →
        c < b.ymax →
        composite overlap_attr b acc crop r c = crop (r - b.xmin) (c - b.ymin)) := by
  refine ⟨?_, ?_, ?_⟩
  · intro b acc crop r c hx hr
    simp only [composite, if_pos hx]
    rw [if_neg]
    rintro ⟨h1, -⟩
    omega
  · intro b acc crop r c hy hc
    simp only [composite, if_pos hy]
    rw [if_neg]
    rintro ⟨-, -, h3, -⟩
    omega
  · intro b acc crop r c hx hy0 hr1 hr2 hc
    simp only [composite, if_pos hx, hy0]
    rw [if_neg (by omega : ¬ 0 < 0), if_pos]
    exact ⟨hr1, hr2, Nat.zero_le c, hc⟩

/-- Witness for c2_fixed_skip at concrete inputs: a tile at x_min = 200 keeps
the accumulator on row 210 (inside the 20-pixel skip), keeps column 5 of a
tile at y_min = 100, and overwrites row 225 (past the skip). -/
theorem c2_witness :
    (0 < 200 ∧ (210 : Nat) < 200 + overlap_attr
      ∧ composite overlap_attr ⟨200, 0, 450, 250⟩ (fun _ _ => 1) (fun _ _ => 2) 210 7 = 1)
    ∧ (0 < 100 ∧ (105 : Nat) < 100 + overlap_attr
      ∧ composite overlap_attr ⟨0, 100, 250, 450⟩ (fun _ _ => 1) (fun _ _ => 2) 7 105 = 1)
    ∧ (0 < 200 ∧ 200 + overlap_attr ≤ 225 ∧ (225 : Nat) < 450 ∧ (7 : Nat) < 250
      ∧ composite overlap_attr ⟨200, 0, 450, 250⟩ (fun _ _ => 1) (fun _ _ => 2) 225 7
          = (fun _ _ => (2 : Nat)) (225 - 200) (7 - 0)) :=
  ⟨⟨by decide, by decide,
      c2_fixed_skip.1 ⟨200, 0, 450, 250⟩ (fun _ _ => 1) (fun _ _ => 2) 210 7
        (by decide) (by decide)⟩,
    ⟨by decide, by decide,
      c2_fixed_skip.2.1 ⟨0, 100, 250, 450⟩ (fun _ _ => 1) (fun _ _ => 2) 7 105
        (by decide) (by decide)⟩,
    ⟨by decide, by decide, by decide, by decide,
      c2_fixed_skip.2.2 ⟨200, 0, 450, 250⟩ (fun _ _ => 1) (fun _ _ => 2) 225 7
        (by decide) rfl (by decide) (by decide) (by decide)⟩⟩

/-- C2 (counterexample): with the pipeline's tile size 250 and ratio 1/5 the
planner's overlap is 50 pixels and produces two tiles sharing the band of
rows 200 to 249; compositing the second tile (x_min = 200 > 0) overwrites the
accumulator at row 225 — a pixel inside the full shared overlap band — because
only the fixed overlap_attr = 20 leading pixels are skipped. -/
theorem c2_counterexample :
    calculate_slice_bboxes 250 450 250 250 1 5 1 5
        = [⟨0, 0, 250, 250⟩, ⟨200, 0, 450, 250⟩]
      ∧ overlapPixels 1 5 250 = 50
      ∧ overlap_attr = 20
      ∧ (200 : Nat) ≤ 225 ∧ (225 : Nat) < 250
      ∧ composite overlap_attr ⟨200, 0, 450, 250⟩ (fun _ _ => 1) (fun _ _ => 2) 225 0 = 2
      ∧ (2 : Nat) ≠ 1 := by
  decide

/- ================= C7: in-place boundary erosion ================= -/

theorem stitch_fold_snd (Himg Wimg conn : Nat) (tiles : List TileData) :
    ∀ (acc : Raster) (done : List TileData),
      (tiles.foldl
        (fun (st : Raster × List TileData) t =>
          let next := stitchStep Himg Wimg conn st.1 t
          (next.1, st.2 ++ [next.2]))
        (acc, done)).2 = done ++ tiles.map erodeTile := by
  induction tiles with
  | nil => intro acc done; simp
  | cons t ts ih =>
    intro acc done
    simp only [List.foldl_cons, List.map_cons]
    rw [ih]
    simp only [List.append_assoc, List.singleton_append]
    rfl

/-- C7 (amended): the boundary-erasure step of stitching is performed in place
on the stored tile rasters: after stitching two or more tiles, every stored
tile raster equals the boundary-eroded version of what it held before (the
original pixel values on region boundaries are overwritten with 0, no copy is
made). -/
theorem c7_amended (Himg Wimg conn : Nat) (tiles : List TileData)
    (h : 1 < tiles.length) :
    (stitch_labels Himg Wimg conn tiles).2 = tiles.map erodeTile := by
  unfold stitch_labels
  rw [if_neg (by omega)]
  exact stitch_fold_snd Himg Wimg conn tiles _ []

/-- Witness for c7_amended on a concrete two-tile plan. -/
theorem c7_witness :
    1 < ([tA, tB] : List TileData).length
      ∧ (stitch_labels 3 3 1 [tA, tB]).2 = [tA, tB].map erodeTile :=
  ⟨by decide, c7_amended 3 3 1 [tA, tB] (by decide)⟩

/-- C7 (counterexample): after stitching the concrete two-tile plan, the first
stored tile raster holds 0 at pixel (1, 1) although the original input raster
held 1 there — the erase-boundaries step modified the input raster. -/
theorem c7_counterexample :
    ((stitch_labels 3 3 1 [tA, tB]).2.head?).map (fun t => t.labels 1 1) = some 0
      ∧ tA.labels 1 1 = 1 := by
  decide

/- ================= C1 and C10: tile labeler ================= -/

theorem lastPaint_cons (k : Nat) (m : Mask) (tl : List Mask) (r c : Nat) :
    lastPaint k (m :: tl) r c =
      match lastPaint (k + 1) tl r c with
      | some v => some v
      | none => if m.segmentation r c then some (paintValue k) else none := rfl

theorem paintMasks_apply (ms : List Mask) :
    ∀ (L : Raster) (k r c : Nat),
      paintMasks L k ms r c = (lastPaint k ms r c).getD (L r c) := by
  induction ms with
  | nil => intro L k r c; rfl
  | cons m tl ih =>
    intro L k r c
    show paintMasks (paint L m.segmentation (paintValue k)) (k + 1) tl r c = _
    rw [ih, lastPaint_cons]
    cases h : lastPaint (k + 1) tl r c with
    | some v => simp [h]
    | none =>
      simp only [h]
      cases hseg : m.segmentation r c with
      | true => simp [paint, hseg]
      | false => simp [paint, hseg]

theorem lastPaint_none (ms : List Mask) :
    ∀ (k r c : Nat), (∀ i, coversB ms i r c = false) →
      lastPaint k ms r c = none := by
  induction ms with
  | nil => intro k r c _; rfl
  | cons m tl ih =>
    intro k r c h
    rw [lastPaint_cons, ih (k + 1) r c (fun i => h (i + 1))]
    simp [show m.segmentation r c = false from h 0]

theorem lastPaint_eq (ms : List Mask) :
    ∀ (k i r c : Nat), coversB ms i r c = true →
      (∀ j, i < j → coversB ms j r c = false) →
      lastPaint k ms r c = some (paintValue (k + i)) := by
  induction ms with
  | nil => intro k i r c hc _; exact Bool.noConfusion hc
  | cons m tl ih =>
    intro k i r c hc hafter
    rw [lastPaint_cons]
    cases i with
    | zero =>
      have htl : lastPaint (k + 1) tl r c = none :=
        lastPaint_none tl (k + 1) r c (fun j => hafter (j + 1) (Nat.succ_pos j))
      rw [htl]
      simp [show m.segmentation r c = true from hc]
    | succ i =>
      have htl := ih (k + 1) i r c hc (fun j hj => hafter (j + 1) (by omega))
      rw [htl, show k + 1 + i = k + (i + 1) from by omega]

/-- C1 (amended): for every tile image and non-empty mask list the labeler
returns a raster in which a pixel holds paintValue i = i % 256, where i is the
position (0-based, not 1-based) after sorting by area descending of the last
sorted mask covering the pixel: larger sort index (smaller area) wins at
overlapping pixels, pixels covered by no mask stay 0, and in particular the
largest mask is painted with sort index 0, which is the background value. -/
theorem c1_amended (imageH imageW : Nat) (masks : List Mask)
    (h : masks.length ≠ 0) :
    ∃ L, labels_from_sam_masks imageH imageW masks = some L
      ∧ (∀ r c i, coversB (sortMasks masks) i r c = true →
          (∀ j, i < j → coversB (sortMasks masks) j r c = false) →
          L r c = paintValue i)
      ∧ (∀ r c, (∀ i, coversB (sortMasks masks) i r c = false) → L r c = 0) := by
  refine ⟨paintMasks (fun _ _ => 0) 0 (sortMasks masks), ?_, ?_, ?_⟩
  · unfold labels_from_sam_masks
    rw [if_neg h]
  · intro r c i hc hafter
    rw [paintMasks_apply, lastPaint_eq (sortMasks masks) 0 i r c hc hafter]
    simp [Nat.zero_add]
  · intro r c hnone
    rw [paintMasks_apply, lastPaint_none (sortMasks masks) 0 r c hnone]
    rfl

/-- Witness for c1_amended on the concrete one-mask list. -/
theorem c1_witness :
    oneMask.length ≠ 0
      ∧ ∃ L, labels_from_sam_masks 4 4 oneMask = some L
        ∧ (∀ r c i, coversB (sortMasks oneMask) i r c = true →
            (∀ j, i < j → coversB (sortMasks oneMask) j r c = false) →
            L r c = paintValue i)
        ∧ (∀ r c, (∀ i, coversB (sortMasks oneMask) i r c = false) → L r c = 0) :=
  ⟨by decide, c1_amended 4 4 oneMask (by decide)⟩

/-- C1 (counterexample): with a single mask (sort index 0, hence the largest),
the pixel (0, 0) it covers is painted 0, not the positive label
1 + sort_index = 1 that the claim requires. -/
theorem c1_counterexample :
    (labels_from_sam_masks 4 4 oneMask).map (fun L => L 0 0) = some 0
      ∧ (labels_from_sam_masks 4 4 oneMask).map (fun L => L 0 0) ≠ some 1 := by
  decide

theorem coversB_oob (ms : List Mask) (i r c : Nat) (h : ms.length ≤ i) :
    coversB ms i r c = false := by
  unfold coversB
  rw [List.get?_eq_none.2 h]

theorem insertByAreaDesc_append (m : Mask) :
    ∀ (l : List Mask), (∀ x ∈ l, m.area ≤ x.area) →
      insertByAreaDesc m l = l ++ [m] := by
  intro l
  induction l with
  | nil => intro _; rfl
  | cons x xs ih =>
    intro h
    unfold insertByAreaDesc
    rw [if_pos (h x (List.mem_cons_self x xs)),
      ih (fun y hy => h y (List.mem_cons_of_mem x hy))]
    rfl

theorem foldl_insert_sorted :
    ∀ (l acc : List Mask), l.Pairwise (fun a b => b.area ≤ a.area) →
      (∀ m ∈ l, ∀ x ∈ acc, m.area ≤ x.area) →
      l.foldl (fun acc2 m => insertByAreaDesc m acc2) acc = acc ++ l := by
  intro l
  induction l with
  | nil => intro acc _ _; simp
  | cons m tl ih =>
    intro acc hpair hle
    simp only [List.foldl_cons]
    rw [insertByAreaDesc_append m acc (hle m (List.mem_cons_self m tl)),
      ih (acc ++ [m]) (List.Pairwise.of_cons hpair) ?_]
    · simp
    · intro m2 hm2 x hx
      rcases List.mem_append.1 hx with hx1 | hx2
      · exact hle m2 (List.mem_cons_of_mem m hm2) x hx1
      · rcases List.mem_singleton.1 hx2 with rfl
        exact (List.pairwise_cons.1 hpair).1 m2 hm2

theorem sortMasks_of_sorted (l : List Mask)
    (h : l.Pairwise (fun a b => b.area ≤ a.area)) : sortMasks l = l := by
  unfold sortMasks
  rw [foldl_insert_sorted l [] h (fun m _ x hx => absurd hx (List.not_mem_nil x))]
  rfl

theorem cMasks_pairwise : cMasks.Pairwise (fun a b => b.area ≤ a.area) := by
  unfold cMasks
  exact List.Pairwise.map cMask
    (fun a b hab => Nat.sub_le_sub_left (Nat.le_of_lt hab) 300)
    (List.pairwise_lt_range 257)

theorem sortMasks_cMasks : sortMasks cMasks = cMasks :=
  sortMasks_of_sorted cMasks cMasks_pairwise

theorem cMasks_length : cMasks.length = 257 := by
  unfold cMasks
  rw [List.length_map, List.length_range]

theorem coversB_cMasks (i r c : Nat) (hi : i < 257) :
    coversB cMasks i r c = decide (r = 0 ∧ c = i) := by
  unfold coversB cMasks
  rw [List.get?_map, List.get?_range hi]
  rfl

/-- C10: the labeler stores labels in a uint8 raster, so the painted value of
sort index i is paintValue i = i % 256; with more than 256 masks the sort
indices 0 and 256 are painted with the same pixel value (both 0), silently
identifying two different masks' pixels with each other (and with the
background). The pixels r c and rp cp are covered exclusively by the sorted
masks number 256 and number 0 respectively. -/
theorem c10_uint8_wraps (imageH imageW : Nat) (masks : List Mask)
    (r c rp cp : Nat) (hlen : 256 < masks.length)
    (h256 : coversB (sortMasks masks) 256 r c = true)
    (h256a : ∀ j, 256 < j → coversB (sortMasks masks) j r c = false)
    (h0 : coversB (sortMasks masks) 0 rp cp = true)
    (h0a : ∀ j, 0 < j → coversB (sortMasks masks) j rp cp = false) :
    paintValue 256 = paintValue 0 ∧ (256 : Nat) ≠ 0
      ∧ ∃ L, labels_from_sam_masks imageH imageW masks = some L
          ∧ L r c = 0 ∧ L rp cp = 0 := by
  refine ⟨rfl, by decide,
    paintMasks (fun _ _ => 0) 0 (sortMasks masks), ?_, ?_, ?_⟩
  · unfold labels_from_sam_masks
    rw [if_neg (by omega)]
  · rw [paintMasks_apply, lastPaint_eq (sortMasks masks) 0 256 r c h256 h256a]
    decide
  · rw [paintMasks_apply, lastPaint_eq (sortMasks masks) 0 0 rp cp h0 h0a]
    decide

/-- Witness for c10_uint8_wraps on the concrete family of 257 single-pixel
masks of strictly decreasing area. -/
theorem c10_witness :
    (256 < cMasks.length
      ∧ coversB (sortMasks cMasks) 256 0 256 = true
      ∧ (∀ j, 256 < j → coversB (sortMasks cMasks) j 0 256 = false)
      ∧ coversB (sortMasks cMasks) 0 0 0 = true
      ∧ (∀ j, 0 < j → coversB (sortMasks cMasks) j 0 0 = false))
    ∧ (paintValue 256 = paintValue 0 ∧ (256 : Nat) ≠ 0
      ∧ ∃ L, labels_from_sam_masks 5 300 cMasks = some L
          ∧ L 0 256 = 0 ∧ L 0 0 = 0) := by
  have hlen : 256 < cMasks.length := by rw [cMasks_length]; omega
  have h256 : coversB (sortMasks cMasks) 256 0 256 = true := by
    rw [sortMasks_cMasks, coversB_cMasks 256 0 256 (by omega)]
    decide
  have h256a : ∀ j, 256 < j → coversB (sortMasks cMasks) j 0 256 = false := by
    intro j hj
    rw [sortMasks_cMasks]
    exact coversB_oob cMasks j 0 256 (by rw [cMasks_length]; omega)
  have h0 : coversB (sortMasks cMasks) 0 0 0 = true := by
    rw [sortMasks_cMasks, coversB_cMasks 0 0 0 (by omega)]
    decide
  have h0a : ∀ j, 0 < j → coversB (sortMasks cMasks) j 0 0 = false := by
    intro j hj
    rw [sortMasks_cMasks]
    by_cases hcase : j < 257
    · rw [coversB_cMasks j 0 0 hcase]
      simp only [decide_eq_false_iff_not]
      omega
    · exact coversB_oob cMasks j 0 0 (by rw [cMasks_length]; omega)
  exact ⟨⟨hlen, h256, h256a, h0, h0a⟩,
    c10_uint8_wraps 5 300 cMasks 0 256 0 0 hlen h256 h256a h0 h0a⟩

/- ================= label_cc support lemmas ================= -/

theorem mem_if_singleton {q x : Nat × Nat} {P : Prop} [Decidable P]
    (hq : q ∈ (if P then [x] else ([] : List (Nat × Nat)))) : P ∧ q = x := by
  split at hq
  · exact ⟨by assumption, List.mem_singleton.1 hq⟩
  · exact absurd hq (List.not_mem_nil q)

theorem mem_neighbors4 {H W r c : Nat} {q : Nat × Nat}
    (hq : q ∈ neighbors4 H W r c) : q.1 < H ∧ q.2 < W := by
  unfold neighbors4 at hq
  rcases List.mem_append.1 hq with hq | hq
  · rcases List.mem_append.1 hq with hq | hq
    · rcases List.mem_append.1 hq with hq | hq
      · obtain ⟨hp, rfl⟩ := mem_if_singleton hq
        exact ⟨hp.2.1, hp.2.2⟩
      · obtain ⟨hp, rfl⟩ := mem_if_singleton hq
        exact ⟨hp.1, hp.2⟩
    · obtain ⟨hp, rfl⟩ := mem_if_singleton hq
      exact ⟨hp.2.2, hp.2.1⟩
  · obtain ⟨hp, rfl⟩ := mem_if_singleton hq
    exact ⟨hp.2, hp.1⟩

theorem mem_neighborsDiag {H W r c : Nat} {q : Nat × Nat}
    (hq : q ∈ neighborsDiag H W r c) : q.1 < H ∧ q.2 < W := by
  unfold neighborsDiag at hq
  rcases List.mem_append.1 hq with hq | hq
  · rcases List.mem_append.1 hq with hq | hq
    · rcases List.mem_append.1 hq with hq | hq
      · obtain ⟨hp, rfl⟩ := mem_if_singleton hq
        exact ⟨hp.2.1, hp.2.2.2⟩
      · obtain ⟨hp, rfl⟩ := mem_if_singleton hq
        exact ⟨hp.2.1, hp.2.2⟩
    · obtain ⟨hp, rfl⟩ := mem_if_singleton hq
      exact ⟨hp.1, hp.2.2⟩
  · obtain ⟨hp, rfl⟩ := mem_if_singleton hq
    exact ⟨hp.1, hp.2⟩

theorem mem_neighborsConn {conn H W r c : Nat} {q : Nat × Nat}
    (hq : q ∈ neighborsConn conn H W r c) : q.1 < H ∧ q.2 < W := by
  unfold neighborsConn at hq
  split at hq
  · exact mem_neighbors4 hq
  · rcases List.mem_append.1 hq with hq | hq
    · exact mem_neighbors4 hq
    · exact mem_neighborsDiag hq

theorem bfsVisit_sub (conn H W : Nat) (g : Raster) (v : Nat) :
    ∀ (fuel : Nat) (frontier visited : List (Nat × Nat)),
      (∀ q ∈ frontier, (q.1 < H ∧ q.2 < W) ∧ g q.1 q.2 = v) →
      ∀ q ∈ bfsVisit conn H W g v fuel frontier visited,
        q ∈ visited ∨ ((q.1 < H ∧ q.2 < W) ∧ g q.1 q.2 = v) := by
  intro fuel
  induction fuel with
  | zero => intro frontier visited _ q hq; exact Or.inl hq
  | succ fuel ih =>
    intro frontier visited hfront q hq
    cases frontier with
    | nil => exact Or.inl hq
    | cons p fr =>
      rw [bfsVisit] at hq
      split at hq
      · exact ih fr visited (fun x hx => hfront x (List.mem_cons_of_mem p hx)) q hq
      · have hpre : ∀ x ∈ fr ++ (neighborsConn conn H W p.1 p.2).filter
            (fun q2 => g q2.1 q2.2 == v),
            (x.1 < H ∧ x.2 < W) ∧ g x.1 x.2 = v := by
          intro x hx
          rcases List.mem_append.1 hx with hx | hx
          · exact hfront x (List.mem_cons_of_mem p hx)
          · obtain ⟨hmem, hval⟩ := List.mem_filter.1 hx
            exact ⟨mem_neighborsConn hmem, by
              have := beq_iff_eq.1 hval
              exact this⟩
        rcases ih _ _ hpre q hq with hq2 | hq2
        · rcases List.mem_append.1 hq2 with hq3 | hq3
          · exact Or.inl hq3
          · exact Or.inr (by
              rw [List.mem_singleton.1 hq3]
              exact hfront p (List.mem_cons_self p fr))
        · exact Or.inr hq2

theorem bfsVisit_visited_sub (conn H W : Nat) (g : Raster) (v : Nat) :
    ∀ (fuel : Nat) (frontier visited : List (Nat × Nat)),
      ∀ q ∈ visited, q ∈ bfsVisit conn H W g v fuel frontier visited := by
  intro fuel
  induction fuel with
  | zero => intro frontier visited q hq; exact hq
  | succ fuel ih =>
    intro frontier visited q hq
    cases frontier with
    | nil => exact hq
    | cons p fr =>
      rw [bfsVisit]
      split
      · exact ih fr visited q hq
      · exact ih _ (visited ++ [p]) q (List.mem_append_left [p] hq)

theorem bfsVisit_start_mem (conn H W : Nat) (g : Raster) (v : Nat)
    (fuel : Nat) (p : Nat × Nat) :
    p ∈ bfsVisit conn H W g v (fuel + 1) [p] [] := by
  rw [bfsVisit]
  rw [if_neg (List.not_mem_nil p)]
  exact bfsVisit_visited_sub conn H W g v fuel _ ([] ++ [p]) p (by simp)

theorem label_cc_supp (conn H W : Nat) (g : Raster) (r c : Nat)
    (h : label_cc conn H W g r c ≠ 0) : g r c ≠ 0 ∧ r < H ∧ c < W := by
  unfold label_cc at h
  have hinv := foldl_inv
    (fun (st : Raster × Nat) => ∀ a b, st.1 a b ≠ 0 → g a b ≠ 0 ∧ a < H ∧ b < W)
    (labelStep conn H W g) (gridCells H W) ((fun _ _ => 0 : Raster), 1)
    (fun a b hab => absurd rfl hab) ?_
  · exact hinv r c h
  · intro st p hp hst a b hab
    unfold labelStep at hab
    by_cases hcond : g p.1 p.2 ≠ 0 ∧ st.1 p.1 p.2 = 0
    · rw [if_pos hcond] at hab
      simp only at hab
      by_cases hmem : (a, b) ∈ bfsVisit conn H W g (g p.1 p.2) (9 * (H * W) + 9) [p] []
      · have hpre : ∀ q ∈ ([p] : List (Nat × Nat)),
            (q.1 < H ∧ q.2 < W) ∧ g q.1 q.2 = g p.1 p.2 := by
          intro q hq
          rw [List.mem_singleton.1 hq]
          exact ⟨mem_gridCells.1 (by exact hp), rfl⟩
        rcases bfsVisit_sub conn H W g (g p.1 p.2) _ [p] [] hpre (a, b) hmem with
          habs | hgood
        · exact absurd habs (List.not_mem_nil (a, b))
        · exact ⟨by rw [hgood.2]; exact hcond.1, hgood.1⟩
      · rw [if_neg hmem] at hab
        exact hst a b hab
    · rw [if_neg hcond] at hab
      exact hst a b hab

theorem label_cc_zero (conn H W : Nat) (g : Raster) (r c : Nat)
    (h : g r c = 0 ∨ ¬(r < H ∧ c < W)) : label_cc conn H W g r c = 0 := by
  by_contra hne
  obtain ⟨h1, h2, h3⟩ := label_cc_supp conn H W g r c hne
  rcases h with h | h
  · exact h1 h
  · exact h ⟨h2, h3⟩

theorem labelStep_snd (conn H W : Nat) (g : Raster) (st : Raster × Nat)
    (p : Nat × Nat) (h : 1 ≤ st.2) : 1 ≤ (labelStep conn H W g st p).2 := by
  unfold labelStep
  split
  · simp only
    omega
  · exact h

theorem labelStep_nz (conn H W : Nat) (g : Raster) (st : Raster × Nat)
    (p : Nat × Nat) (a b : Nat) (h1 : 1 ≤ st.2) (h2 : st.1 a b ≠ 0) :
    (labelStep conn H W g st p).1 a b ≠ 0 := by
  unfold labelStep
  split
  · simp only
    split
    · omega
    · exact h2
  · exact h2

theorem label_cc_nz_pres (conn H W : Nat) (g : Raster) :
    ∀ (l : List (Nat × Nat)) (st : Raster × Nat) (a b : Nat),
      1 ≤ st.2 → st.1 a b ≠ 0 →
      (l.foldl (labelStep conn H W g) st).1 a b ≠ 0 := by
  intro l
  induction l with
  | nil => intro st a b _ h2; exact h2
  | cons p tl ih =>
    intro st a b h1 h2
    simp only [List.foldl_cons]
    exact ih (labelStep conn H W g st p) a b (labelStep_snd conn H W g st p h1)
      (labelStep_nz conn H W g st p a b h1 h2)

theorem label_cc_nonzero (conn H W : Nat) (g : Raster) (r c : Nat)
    (hr : r < H) (hc : c < W) (h : g r c ≠ 0) : label_cc conn H W g r c ≠ 0 := by
  unfold label_cc
  suffices hmain : ∀ (l : List (Nat × Nat)) (st : Raster × Nat), 1 ≤ st.2 →
      ∀ q ∈ l, g q.1 q.2 ≠ 0 →
      (l.foldl (labelStep conn H W g) st).1 q.1 q.2 ≠ 0 by
    exact hmain (gridCells H W) ((fun _ _ => 0 : Raster), 1) (by omega) (r, c)
      (mem_gridCells.2 ⟨hr, hc⟩) h
  intro l
  induction l with
  | nil => intro st _ q hq; exact absurd hq (List.not_mem_nil q)
  | cons p tl ih =>
    intro st h1 q hq hqg
    simp only [List.foldl_cons]
    rcases List.mem_cons.1 hq with hqp | hq2
    · subst hqp
      refine label_cc_nz_pres conn H W g tl _ q.1 q.2
        (labelStep_snd conn H W g st q h1) ?_
      unfold labelStep
      by_cases hcond : g q.1 q.2 ≠ 0 ∧ st.1 q.1 q.2 = 0
      · rw [if_pos hcond]
        simp only
        rw [if_pos]
        · omega
        · have h9 : (9 : Nat) * (H * W) + 9 = (9 * (H * W) + 8) + 1 := by omega
          rw [h9]
          exact bfsVisit_start_mem conn H W g (g q.1 q.2) (9 * (H * W) + 8) q
      · rw [if_neg hcond]
        intro hz
        exact hcond ⟨hqg, hz⟩
    · exact ih (labelStep conn H W g st p) (labelStep_snd conn H W g st p h1) q hq2 hqg

/- ================= C9: inclusive area bounds ================= -/

/-- C9: the area filter's bounds are inclusive. For a region whose
eccentricity passes the shape test, if its area equals amin or amax its pixels
survive the shape/area pass (the label is not zeroed), while if its area
equals amin - 1 (with amin positive) or amax + 1 its pixels are zeroed. -/
theorem c9_area_bounds_inclusive (eccFn : List (Nat × Nat) → ℚ)
    (amin amax : Nat) (eccTh : ℚ) (H W : Nat) (O : Raster) (r c : Nat)
    (hb : amin ≤ amax) (hr : r < H) (hc : c < W) (h0 : O r c ≠ 0)
    (hecc : ¬ eccFn (classPixels H W O (O r c)) < eccTh) :
    ((areaOf H W O (O r c) = amin ∨ areaOf H W O (O r c) = amax) →
      filter_labels_by_shape eccFn amin amax eccTh H W O r c ≠ 0)
    ∧ (((amin ≠ 0 ∧ areaOf H W O (O r c) = amin - 1)
        ∨ areaOf H W O (O r c) = amax + 1) →
      filter_labels_by_shape eccFn amin amax eccTh H W O r c = 0) := by
  constructor
  · intro harea
    unfold filter_labels_by_shape
    apply label_cc_nonzero 1 H W _ r c hr hc
    simp only [filterShapeZero]
    rw [if_neg]
    · exact h0
    · rintro ⟨-, -, -, hfail⟩
      unfold regionFails at hfail
      simp only [Bool.or_eq_true, Bool.not_eq_true', decide_eq_false_iff_not,
        decide_eq_true_eq] at hfail
      rcases hfail with hfail | hfail
      · rcases harea with h | h <;> omega
      · exact hecc hfail
  · intro harea
    have hfail : regionFails eccFn amin amax eccTh H W O (O r c) = true := by
      unfold regionFails
      simp only [Bool.or_eq_true, Bool.not_eq_true', decide_eq_false_iff_not,
        decide_eq_true_eq]
      left
      rcases harea with ⟨hne, h⟩ | h <;> omega
    unfold filter_labels_by_shape
    apply label_cc_zero
    left
    simp only [filterShapeZero]
    rw [if_pos ⟨hr, hc, h0, hfail⟩]

/-- Witness for c9_area_bounds_inclusive: the one-pixel region of g3 has area
1 = amin with bounds [1, 2] and survives the shape/area pass. -/
theorem c9_witness :
    ((1 : Nat) ≤ 2 ∧ (1 : Nat) < 3 ∧ (1 : Nat) < 3 ∧ g3 1 1 ≠ 0
      ∧ ¬ ecc0 (classPixels 3 3 g3 (g3 1 1)) < 0
      ∧ (areaOf 3 3 g3 (g3 1 1) = 1 ∨ areaOf 3 3 g3 (g3 1 1) = 2))
    ∧ filter_labels_by_shape ecc0 1 2 0 3 3 g3 1 1 ≠ 0 :=
  ⟨⟨by decide, by decide, by decide, by decide, by decide, Or.inl (by decide)⟩,
    (c9_area_bounds_inclusive ecc0 1 2 0 3 3 g3 1 1 (by decide) (by decide)
      (by decide) (by decide) (by decide)).1 (Or.inl (by decide))⟩

/- ================= C8: filter chain idempotence ================= -/

/-- C8 (amended): on a raster all of whose present regions pass the area and
eccentricity tests and whose border pixels are all background — which is the
state of the chain's own output on well-labeled inputs — running the filter
chain returns exactly the connected-component relabeling of the raster: the
same pixels are labeled and unlabeled (support unchanged), but the pixel
values themselves may be renumbered by the relabel step, so the chain is
idempotent only up to relabeling, not pixel-for-pixel. -/
theorem c8_amended (eccFn : List (Nat × Nat) → ℚ) (amin amax : Nat)
    (eccTh : ℚ) (H W : Nat) (O : Raster)
    (hb : ∀ r, r < H → ∀ c, c < W → O r c ≠ 0 →
      regionFails eccFn amin amax eccTh H W O (O r c) = false)
    (hc : ∀ p ∈ borderCells H W, O p.1 p.2 = 0) :
    filterChain eccFn amin amax eccTh H W O = label_cc 1 H W O
    ∧ ∀ r, r < H → ∀ c, c < W →
        (label_cc 1 H W O r c = 0 ↔ O r c = 0) := by
  have hzb : filterShapeZero eccFn amin amax eccTh H W O = O := by
    funext r c
    simp only [filterShapeZero]
    rw [if_neg]
    rintro ⟨hr, hcw, h0, hfail⟩
    rw [hb r hr c hcw h0] at hfail
    exact Bool.noConfusion hfail
  have hlz : ∀ a b, O a b = 0 → label_cc 1 H W O a b = 0 := fun a b h =>
    label_cc_zero 1 H W O a b (Or.inl h)
  have hcb : clear_border H W (label_cc 1 H W O) = label_cc 1 H W O := by
    funext r c
    simp only [clear_border]
    by_cases hval : label_cc 1 H W O r c = 0
    · rw [hval]
      split <;> rfl
    · rw [if_neg]
      intro hany
      rw [List.any_eq_true] at hany
      obtain ⟨q, hq, hqe⟩ := hany
      have hq0 : label_cc 1 H W O q.1 q.2 = 0 := hlz q.1 q.2 (hc q hq)
      rw [beq_iff_eq, hq0] at hqe
      exact hval hqe.symm
  constructor
  · unfold filterChain filter_labels_on_the_border filter_labels_by_shape
    rw [hzb, hcb]
  · intro r hr c hcw
    constructor
    · intro h
      by_contra h0
      exact label_cc_nonzero 1 H W O r c hr hcw h0 h
    · exact hlz r c

/-- Witness for c8_amended: the already-filtered 3 by 3 raster g3 (one interior
one-pixel region, empty border) with bounds [1, 100]. -/
theorem c8_witness :
    ((∀ r, r < 3 → ∀ c, c < 3 → g3 r c ≠ 0 →
        regionFails ecc0 1 100 0 3 3 g3 (g3 r c) = false)
      ∧ (∀ p ∈ borderCells 3 3, g3 p.1 p.2 = 0))
    ∧ (filterChain ecc0 1 100 0 3 3 g3 = label_cc 1 3 3 g3
      ∧ ∀ r, r < 3 → ∀ c, c < 3 → (label_cc 1 3 3 g3 r c = 0 ↔ g3 r c = 0)) :=
  ⟨⟨by decide, by decide⟩, c8_amended ecc0 1 100 0 3 3 g3 (by decide) (by decide)⟩

/-- C8 (counterexample): on the raster O8 (label 1 on the border, label 2 at
the interior pixel (1, 1)) the first chain run keeps pixel (1, 1) with value
2; the second run relabels it to 1 because the shape pass's final relabel
compacts the id gap left by the border pass — so re-running the identical
chain does not return the first output unchanged. -/
theorem c8_counterexample :
    filterChain ecc0 1 100 0 3 3 O8 1 1 = 2
      ∧ filterChain ecc0 1 100 0 3 3 (filterChain ecc0 1 100 0 3 3 O8) 1 1 = 1
      ∧ (2 : Nat) ≠ 1 := by
  decide

/- ================= C3: equivalence-merge pass ================= -/

theorem stepRel_zero {g h : Raster} (hs : StepRel g h) (r c : Nat)
    (hz : g r c = 0) : h r c = 0 := by
  rcases hs with rfl | ⟨t, v, ht, hv, rfl⟩
  · exact hz
  · unfold replaceAll
    rw [if_neg (by rw [hz]; exact fun hh => ht hh.symm)]
    exact hz

theorem stepRel_eq {g h : Raster} (hs : StepRel g h) (r c a b : Nat)
    (he : g r c = g a b) : h r c = h a b := by
  rcases hs with rfl | ⟨t, v, ht, hv, rfl⟩
  · exact he
  · unfold replaceAll
    rw [he]

theorem stepStar_zero {g h : Raster} (hs : StepStar g h) (r c : Nat)
    (hz : g r c = 0) : h r c = 0 := by
  induction hs with
  | refl => exact hz
  | tail _ hstep ih => exact stepRel_zero hstep r c ih

theorem stepStar_eq {g h : Raster} (hs : StepStar g h) (r c a b : Nat)
    (he : g r c = g a b) : h r c = h a b := by
  induction hs with
  | refl => exact he
  | tail _ hstep ih => exact stepRel_eq hstep r c a b ih

theorem mergeNeighbor_step (rc : Nat × Nat) (g : Raster) (p : Nat × Nat)
    (h : g rc.1 rc.2 ≠ 0) : StepRel g (mergeNeighbor rc g p) := by
  unfold mergeNeighbor
  by_cases hcond : g p.1 p.2 ≠ 0 ∧ g p.1 p.2 ≠ g rc.1 rc.2
  · rw [if_pos hcond]
    exact Or.inr ⟨g p.1 p.2, g rc.1 rc.2, hcond.1, h, rfl⟩
  · rw [if_neg hcond]
    exact Or.inl rfl

theorem mergeNeighbor_center (rc : Nat × Nat) (g : Raster) (p : Nat × Nat) :
    (mergeNeighbor rc g p) rc.1 rc.2 = g rc.1 rc.2 := by
  unfold mergeNeighbor
  by_cases hcond : g p.1 p.2 ≠ 0 ∧ g p.1 p.2 ≠ g rc.1 rc.2
  · rw [if_pos hcond]
    unfold replaceAll
    rw [if_neg (fun hh => hcond.2 hh.symm)]
  · rw [if_neg hcond]

theorem foldNeigh_center (rc : Nat × Nat) :
    ∀ (l : List (Nat × Nat)) (g : Raster),
      (l.foldl (mergeNeighbor rc) g) rc.1 rc.2 = g rc.1 rc.2 := by
  intro l
  induction l with
  | nil => intro g; rfl
  | cons p tl ih =>
    intro g
    simp only [List.foldl_cons]
    rw [ih, mergeNeighbor_center]

theorem foldNeigh_star (rc : Nat × Nat) :
    ∀ (l : List (Nat × Nat)) (g : Raster), g rc.1 rc.2 ≠ 0 →
      StepStar g (l.foldl (mergeNeighbor rc) g) := by
  intro l
  induction l with
  | nil => intro g _; exact Relation.ReflTransGen.refl
  | cons p tl ih =>
    intro g h
    simp only [List.foldl_cons]
    have h1 : (mergeNeighbor rc g p) rc.1 rc.2 ≠ 0 := by
      rw [mergeNeighbor_center]
      exact h
    exact Relation.ReflTransGen.head (mergeNeighbor_step rc g p h) (ih _ h1)

theorem foldNeigh_prop (rc : Nat × Nat) :
    ∀ (l : List (Nat × Nat)) (g : Raster), g rc.1 rc.2 ≠ 0 →
      ∀ q ∈ l, (l.foldl (mergeNeighbor rc) g) q.1 q.2 = 0
        ∨ (l.foldl (mergeNeighbor rc) g) q.1 q.2
            = (l.foldl (mergeNeighbor rc) g) rc.1 rc.2 := by
  intro l
  induction l with
  | nil => intro g _ q hq; exact absurd hq (List.not_mem_nil q)
  | cons p tl ih =>
    intro g hg q hq
    simp only [List.foldl_cons]
    have hg1 : (mergeNeighbor rc g p) rc.1 rc.2 ≠ 0 := by
      rw [mergeNeighbor_center]
      exact hg
    rcases List.mem_cons.1 hq with hqp | hq2
    · subst hqp
      have hbase : (mergeNeighbor rc g q) q.1 q.2 = 0
          ∨ (mergeNeighbor rc g q) q.1 q.2 = (mergeNeighbor rc g q) rc.1 rc.2 := by
        unfold mergeNeighbor
        by_cases hcond : g q.1 q.2 ≠ 0 ∧ g q.1 q.2 ≠ g rc.1 rc.2
        · rw [if_pos hcond]
          right
          unfold replaceAll
          rw [if_pos rfl, if_neg (fun hh => hcond.2 hh.symm)]
        · rw [if_neg hcond]
          push_neg at hcond
          by_cases hz : g q.1 q.2 = 0
          · exact Or.inl hz
          · exact Or.inr (hcond hz)
      have hstar := foldNeigh_star rc tl _ hg1
      rcases hbase with hb | hb
      · exact Or.inl (stepStar_zero hstar q.1 q.2 hb)
      · exact Or.inr (stepStar_eq hstar q.1 q.2 rc.1 rc.2 hb)
    · exact ih _ hg1 q hq2

theorem mergeCenter_star (rmax cmax : Nat) (g : Raster) (rc : Nat × Nat) :
    StepStar g (mergeCenter rmax cmax g rc) := by
  unfold mergeCenter
  by_cases hcond : 0 < rc.1 ∧ rc.1 < rmax - 1 ∧ 0 < rc.2 ∧ rc.2 < cmax - 1
      ∧ 0 < g rc.1 rc.2
  · rw [if_pos hcond]
    exact foldNeigh_star rc _ g (Nat.pos_iff_ne_zero.1 hcond.2.2.2.2)
  · rw [if_neg hcond]
    exact Relation.ReflTransGen.refl

theorem foldCenters_star (rmax cmax : Nat) :
    ∀ (l : List (Nat × Nat)) (g : Raster),
      StepStar g (l.foldl (mergeCenter rmax cmax) g) := by
  intro l
  induction l with
  | nil => intro g; exact Relation.ReflTransGen.refl
  | cons p tl ih =>
    intro g
    simp only [List.foldl_cons]
    exact Relation.ReflTransGen.trans (mergeCenter_star rmax cmax g p) (ih _)

theorem foldCenters_prop (rmax cmax : Nat) :
    ∀ (l : List (Nat × Nat)) (g : Raster) (rc : Nat × Nat), rc ∈ l →
      (0 < rc.1 ∧ rc.1 < rmax - 1 ∧ 0 < rc.2 ∧ rc.2 < cmax - 1) →
      (l.foldl (mergeCenter rmax cmax) g) rc.1 rc.2 ≠ 0 →
      ∀ q ∈ neighborsOf rc.1 rc.2,
        (l.foldl (mergeCenter rmax cmax) g) q.1 q.2 = 0
        ∨ (l.foldl (mergeCenter rmax cmax) g) q.1 q.2
            = (l.foldl (mergeCenter rmax cmax) g) rc.1 rc.2 := by
  intro l
  induction l with
  | nil => intro g rc hmem; exact absurd hmem (List.not_mem_nil rc)
  | cons p tl ih =>
    intro g rc hmem hint hnz q hq
    simp only [List.foldl_cons] at hnz ⊢
    rcases List.mem_cons.1 hmem with hrc | h2
    · subst hrc
      by_cases hg : 0 < g rc.1 rc.2
      · have hguard : 0 < rc.1 ∧ rc.1 < rmax - 1 ∧ 0 < rc.2 ∧ rc.2 < cmax - 1
            ∧ 0 < g rc.1 rc.2 :=
          ⟨hint.1, hint.2.1, hint.2.2.1, hint.2.2.2, hg⟩
        have hg1 : mergeCenter rmax cmax g rc
            = (neighborsOf rc.1 rc.2).foldl (mergeNeighbor rc) g := by
          unfold mergeCenter
          rw [if_pos hguard]
        have hgne : g rc.1 rc.2 ≠ 0 := Nat.pos_iff_ne_zero.1 hg
        have hprop := foldNeigh_prop rc (neighborsOf rc.1 rc.2) g hgne q hq
        have hstar := foldCenters_star rmax cmax tl (mergeCenter rmax cmax g rc)
        rw [hg1] at hstar
        rcases hprop with hp0 | hpe
        · left
          rw [hg1]
          exact stepStar_zero hstar q.1 q.2 hp0
        · right
          rw [hg1]
          exact stepStar_eq hstar q.1 q.2 rc.1 rc.2 hpe
      · exfalso
        apply hnz
        have hz : g rc.1 rc.2 = 0 := Nat.eq_zero_of_not_pos hg
        have hz1 : mergeCenter rmax cmax g rc rc.1 rc.2 = 0 := by
          unfold mergeCenter
          rw [if_neg (fun hh => hg hh.2.2.2.2)]
          exact hz
        exact stepStar_zero (foldCenters_star rmax cmax tl _) rc.1 rc.2 hz1
    · exact ih (mergeCenter rmax cmax g p) rc h2 hint hnz q hq

/-- C3 (amended): the merge pass scans only the strictly interior pixels
(0 < r < rmax - 1, 0 < c < cmax - 1) as centers — pixels of row 0, the last
row, column 0 and the last column are never used as centers — and for each
scanned nonzero center every 8-neighbor holding a different nonzero label is
merged immediately by a global overwrite. Consequently, after the pass, every
interior pixel that still holds a nonzero label has each of its 8 neighbors
either background or carrying that same label; pairs of labels touching only
along the raster frame may both survive. -/
theorem c3_amended (rmax cmax : Nat) (g : Raster) (r c : Nat)
    (h1 : 0 < r) (h2 : r < rmax - 1) (h3 : 0 < c) (h4 : c < cmax - 1)
    (hnz : merge_labels_after_stitching rmax cmax g r c ≠ 0) :
    ∀ q ∈ neighborsOf r c,
      merge_labels_after_stitching rmax cmax g q.1 q.2 = 0
      ∨ merge_labels_after_stitching rmax cmax g q.1 q.2
          = merge_labels_after_stitching rmax cmax g r c := by
  unfold merge_labels_after_stitching at hnz ⊢
  exact foldCenters_prop rmax cmax (gridCells rmax cmax) g (r, c)
    (mem_gridCells.2 ⟨by omega, by omega⟩) ⟨h1, h2, h3, h4⟩ hnz

/-- Witness for c3_amended at the concrete 3 by 3 raster g3 whose interior
center (1, 1) holds label 1. -/
theorem c3_witness :
    ((0 : Nat) < 1 ∧ (1 : Nat) < 3 - 1 ∧ (0 : Nat) < 1 ∧ (1 : Nat) < 3 - 1
      ∧ merge_labels_after_stitching 3 3 g3 1 1 ≠ 0)
    ∧ ∀ q ∈ neighborsOf 1 1,
        merge_labels_after_stitching 3 3 g3 q.1 q.2 = 0
        ∨ merge_labels_after_stitching 3 3 g3 q.1 q.2
            = merge_labels_after_stitching 3 3 g3 1 1 :=
  ⟨⟨by decide, by decide, by decide, by decide, by decide⟩,
    c3_amended 3 3 g3 1 1 (by decide) (by decide) (by decide) (by decide)
      (by decide)⟩

/-- C3 (counterexample): on the 2 by 2 raster g2 the labels 1 and 2 are
8-adjacent (for instance at pixels (0, 0) and (0, 1)), yet the merge pass
leaves the raster unchanged — no pixel is interior, so border pixels are never
scanned and both labels survive, contradicting the claim that every pixel
including those of row 0, the last row, column 0 and the last column is
scanned and that at most one of two adjacent labels survives. -/
theorem c3_counterexample :
    merge_labels_after_stitching 2 2 g2 0 0 = 1
      ∧ merge_labels_after_stitching 2 2 g2 0 1 = 2
      ∧ merge_labels_after_stitching 2 2 g2 1 0 = 1
      ∧ merge_labels_after_stitching 2 2 g2 1 1 = 2
      ∧ (1 : Nat) ≠ 2 := by
  decide

/- ================= C6: tile planner coverage ================= -/

theorem overlapPixels_lt (num den size : Nat) (hnd : num < den) (hs : 1 ≤ size) :
    overlapPixels num den size < size := by
  unfold overlapPixels
  rw [Nat.div_lt_iff_lt_mul (by omega : 0 < den)]
  calc num * size < den * size := (Nat.mul_lt_mul_right (by omega : 0 < size)).2 hnd
    _ = size * den := Nat.mul_comm den size

theorem sliceRow_boxes (H W slice_h slice_w x_ov y_min y_max : Nat)
    (hsh : slice_h ≤ H) (hsw : slice_w ≤ W) (hy : y_max = y_min + slice_h) :
    ∀ (fuel x_min x_max : Nat),
      ∀ b ∈ sliceRow H W slice_h slice_w x_ov y_min y_max fuel x_min x_max,
        b.xmin + slice_w = b.xmax ∧ b.ymin + slice_h = b.ymax
          ∧ b.xmax ≤ W ∧ b.ymax ≤ H
          ∧ b.ymin = min H y_max - slice_h ∧ b.ymax = min H y_max := by
  intro fuel
  induction fuel with
  | zero => intro x_min x_max b hb; exact absurd hb (List.not_mem_nil b)
  | succ fuel ih =>
    intro x_min x_max b hb
    rw [sliceRow] at hb
    split at hb
    · rcases List.mem_cons.1 hb with hb1 | hb2
      · subst hb1
        split
        case isTrue hclamp =>
          have hw : slice_w ≤ min W (x_min + slice_w) :=
            le_min hsw (Nat.le_add_left _ _)
          have hh : slice_h ≤ min H y_max := le_min hsh (by omega)
          have hw2 : min W (x_min + slice_w) ≤ W := Nat.min_le_left _ _
          have hh2 : min H y_max ≤ H := Nat.min_le_left _ _
          refine ⟨?_, ?_, ?_, ?_, ?_, ?_⟩ <;> dsimp only <;> omega
        case isFalse hnc =>
          push_neg at hnc
          have hmin : min H y_max = y_max := Nat.min_eq_right hnc.1
          refine ⟨?_, ?_, ?_, ?_, ?_, ?_⟩ <;> dsimp only <;> omega
      · exact ih _ _ b hb2
    · exact absurd hb (List.not_mem_nil b)

theorem sliceRows_boxes (H W slice_h slice_w y_ov x_ov : Nat)
    (hsh : slice_h ≤ H) (hsw : slice_w ≤ W) :
    ∀ (fuel y_min y_max : Nat),
      ∀ b ∈ sliceRows H W slice_h slice_w y_ov x_ov fuel y_min y_max,
        b.xmin + slice_w = b.xmax ∧ b.ymin + slice_h = b.ymax
          ∧ b.xmax ≤ W ∧ b.ymax ≤ H := by
  intro fuel
  induction fuel with
  | zero => intro y_min y_max b hb; exact absurd hb (List.not_mem_nil b)
  | succ fuel ih =>
    intro y_min y_max b hb
    rw [sliceRows] at hb
    split at hb
    · rcases List.mem_append.1 hb with hb1 | hb2
      · have hbox := sliceRow_boxes H W slice_h slice_w x_ov y_min
          (y_min + slice_h) hsh hsw rfl (W + 1) 0 0 b hb1
        exact ⟨hbox.1, hbox.2.1, hbox.2.2.1, hbox.2.2.2.1⟩
      · exact ih _ _ b hb2
    · exact absurd hb (List.not_mem_nil b)

theorem sliceRow_covers (H W slice_h slice_w x_ov y_min y_max : Nat)
    (hsw : slice_w ≤ W) (hxov : x_ov < slice_w) :
    ∀ (fuel x_min x_max : Nat), x_max < W → W ≤ fuel + x_min →
      ∀ x, x_min ≤ x → x < W →
        ∃ b ∈ sliceRow H W slice_h slice_w x_ov y_min y_max fuel x_min x_max,
          b.xmin ≤ x ∧ x < b.xmax := by
  intro fuel
  induction fuel with
  | zero => intro x_min x_max hg hf x hx1 hx2; exact absurd hx2 (by omega)
  | succ fuel ih =>
    intro x_min x_max hg hf x hx1 hx2
    rw [sliceRow, if_pos hg]
    by_cases hx3 : x < x_min + slice_w
    · by_cases hclamp : H < y_max ∨ W < x_min + slice_w
      · rw [if_pos hclamp]
        refine ⟨_, List.mem_cons_self _ _, ?_, ?_⟩
        · dsimp only
          have hm : min W (x_min + slice_w) ≤ x_min + slice_w := Nat.min_le_right _ _
          omega
        · dsimp only
          exact Nat.lt_min.2 ⟨hx2, hx3⟩
      · rw [if_neg hclamp]
        exact ⟨_, List.mem_cons_self _ _, hx1, hx3⟩
    · have hg2 : x_min + slice_w < W := by omega
      have hf2 : W ≤ fuel + (x_min + slice_w - x_ov) := by omega
      obtain ⟨b, hb, hbx⟩ := ih (x_min + slice_w - x_ov) (x_min + slice_w) hg2 hf2
        x (by omega) hx2
      exact ⟨b, List.mem_cons_of_mem _ hb, hbx⟩

theorem sliceRows_covers (H W slice_h slice_w y_ov x_ov : Nat)
    (hsh : slice_h ≤ H) (hsw : slice_w ≤ W)
    (hyov : y_ov < slice_h) (hxov : x_ov < slice_w) :
    ∀ (fuel y_min y_max : Nat), y_max < H → H ≤ fuel + y_min →
      ∀ y x, y_min ≤ y → y < H → x < W →
        ∃ b ∈ sliceRows H W slice_h slice_w y_ov x_ov fuel y_min y_max,
          b.xmin ≤ x ∧ x < b.xmax ∧ b.ymin ≤ y ∧ y < b.ymax := by
  intro fuel
  induction fuel with
  | zero => intro y_min y_max hg hf y x hy1 hy2 hx; exact absurd hy2 (by omega)
  | succ fuel ih =>
    intro y_min y_max hg hf y x hy1 hy2 hx
    rw [sliceRows, if_pos hg]
    by_cases hcase : y < min H (y_min + slice_h)
    · obtain ⟨b, hb, hbx1, hbx2⟩ := sliceRow_covers H W slice_h slice_w x_ov
        y_min (y_min + slice_h) hsw hxov (W + 1) 0 0 (by omega) (by omega)
        x (Nat.zero_le x) hx
      have hby := sliceRow_boxes H W slice_h slice_w x_ov y_min
        (y_min + slice_h) hsh hsw rfl (W + 1) 0 0 b hb
      refine ⟨b, List.mem_append_left _ hb, hbx1, hbx2, ?_, ?_⟩
      · rw [hby.2.2.2.2.1]
        have hm : min H (y_min + slice_h) ≤ y_min + slice_h := Nat.min_le_right _ _
        omega
      · rw [hby.2.2.2.2.2]
        exact hcase
    · have hyM : y_min + slice_h ≤ y := by
        rcases Nat.le_total (y_min + slice_h) H with hle | hle
        · rw [Nat.min_eq_right hle] at hcase
          omega
        · rw [Nat.min_eq_left hle] at hcase
          omega
      have hg2 : y_min + slice_h < H := by omega
      have hf2 : H ≤ fuel + (y_min + slice_h - y_ov) := by omega
      obtain ⟨b, hb, hbx⟩ := ih (y_min + slice_h - y_ov) (y_min + slice_h) hg2 hf2
        y x (by omega) hy2 hx
      exact ⟨b, List.mem_append_right _ hb, hbx⟩

/-- C6: for every image at least as large as the requested tile size (1 ≤
slice_h ≤ H, 1 ≤ slice_w ≤ W) and overlap ratios numH/denH, numW/denW in
[0, 1), every box produced by calculate_slice_bboxes has exactly the requested
slice_w by slice_h size and lies inside the image bounds, and the boxes
together cover every pixel of the image. -/
theorem c6_planner_covers (H W slice_h slice_w numH denH numW denW : Nat)
    (h1 : 1 ≤ slice_h) (h2 : slice_h ≤ H) (h3 : 1 ≤ slice_w) (h4 : slice_w ≤ W)
    (h5 : numH < denH) (h6 : numW < denW) :
    (∀ b ∈ calculate_slice_bboxes H W slice_h slice_w numH denH numW denW,
        b.xmin + slice_w = b.xmax ∧ b.ymin + slice_h = b.ymax
          ∧ b.xmax ≤ W ∧ b.ymax ≤ H)
    ∧ ∀ y x, y < H → x < W →
        ∃ b ∈ calculate_slice_bboxes H W slice_h slice_w numH denH numW denW,
          b.xmin ≤ x ∧ x < b.xmax ∧ b.ymin ≤ y ∧ y < b.ymax := by
  have hyov := overlapPixels_lt numH denH slice_h h5 h1
  have hxov := overlapPixels_lt numW denW slice_w h6 h3
  unfold calculate_slice_bboxes
  constructor
  · exact sliceRows_boxes H W slice_h slice_w _ _ h2 h4 (H + 1) 0 0
  · intro y x hy hx
    exact sliceRows_covers H W slice_h slice_w _ _ h2 h4 hyov hxov
      (H + 1) 0 0 (by omega) (by omega) y x (Nat.zero_le y) hy hx

/-- Witness for c6_planner_covers on a 3 by 3 image with 2 by 2 tiles and
overlap ratio 0. -/
theorem c6_witness :
    ((1 : Nat) ≤ 2 ∧ (2 : Nat) ≤ 3 ∧ (1 : Nat) ≤ 2 ∧ (2 : Nat) ≤ 3
      ∧ (0 : Nat) < 1 ∧ (0 : Nat) < 1)
    ∧ ((∀ b ∈ calculate_slice_bboxes 3 3 2 2 0 1 0 1,
          b.xmin + 2 = b.xmax ∧ b.ymin + 2 = b.ymax ∧ b.xmax ≤ 3 ∧ b.ymax ≤ 3)
      ∧ ∀ y x, y < 3 → x < 3 →
          ∃ b ∈ calculate_slice_bboxes 3 3 2 2 0 1 0 1,
            b.xmin ≤ x ∧ x < b.xmax ∧ b.ymin ≤ y ∧ y < b.ymax) :=
  ⟨⟨by decide, by decide, by decide, by decide, by decide, by decide⟩,
    c6_planner_covers 3 3 2 2 0 1 0 1 (by decide) (by decide) (by decide)
      (by decide) (by decide) (by decide)⟩

end MealwormSeg
